import Mathlib

/-!
Verification of the mesh normal-reconstruction code (`build_smooth_normals`)
and the torus distance field from the isosurface example sources.

Modelling conventions:
* `f32` values are modelled as exact rationals (`ℚ`) for the mesh code and as
  reals (`ℝ`) for the torus field, i.e. arithmetic is exact.
* Slice indexing, which panics on out-of-bounds access in the source, is
  modelled with `Option`: a panic is `none`.
* The `&mut Vec` output parameter is modelled by passing the initial contents
  in and returning the final contents.
-/

namespace Iso

/-- A three-component vector, the model of `cgmath::Vector3<f32>`. -/
@[ext]
structure Vec3 where
  x : ℚ
  y : ℚ
  z : ℚ
deriving DecidableEq, Repr

namespace Vec3

instance : Zero Vec3 := ⟨⟨0, 0, 0⟩⟩

instance : Add Vec3 := ⟨fun a b => ⟨a.x + b.x, a.y + b.y, a.z + b.z⟩⟩

instance : Sub Vec3 := ⟨fun a b => ⟨a.x - b.x, a.y - b.y, a.z - b.z⟩⟩

instance : SMul ℚ Vec3 := ⟨fun k v => ⟨k * v.x, k * v.y, k * v.z⟩⟩

@[simp] theorem zero_x : (0 : Vec3).x = 0 := rfl

@[simp] theorem zero_y : (0 : Vec3).y = 0 := rfl

@[simp] theorem zero_z : (0 : Vec3).z = 0 := rfl

@[simp] theorem add_x (a b : Vec3) : (a + b).x = a.x + b.x := rfl

@[simp] theorem add_y (a b : Vec3) : (a + b).y = a.y + b.y := rfl

@[simp] theorem add_z (a b : Vec3) : (a + b).z = a.z + b.z := rfl

@[simp] theorem sub_x (a b : Vec3) : (a - b).x = a.x - b.x := rfl

@[simp] theorem sub_y (a b : Vec3) : (a - b).y = a.y - b.y := rfl

@[simp] theorem sub_z (a b : Vec3) : (a - b).z = a.z - b.z := rfl

@[simp] theorem smul_x (k : ℚ) (v : Vec3) : (k • v).x = k * v.x := rfl

@[simp] theorem smul_y (k : ℚ) (v : Vec3) : (k • v).y = k * v.y := rfl

@[simp] theorem smul_z (k : ℚ) (v : Vec3) : (k • v).z = k * v.z := rfl

instance : AddCommMonoid Vec3 where
  add_assoc a b c := by ext <;> simp <;> ring
  zero_add a := by ext <;> simp
  add_zero a := by ext <;> simp
  add_comm a b := by ext <;> simp <;> ring
  nsmul := nsmulRec

/-- The cross product of two vectors, the model of `Vector3::cross`. -/
def cross (a b : Vec3) : Vec3 :=
  ⟨a.y * b.z - a.z * b.y, a.z * b.x - a.x * b.z, a.x * b.y - a.y * b.x⟩

@[simp] theorem cross_self (a : Vec3) : cross a a = 0 := by
  ext <;> simp [cross] <;> ring

@[simp] theorem cross_zero_left (a : Vec3) : cross 0 a = 0 := by
  ext <;> simp [cross]

@[simp] theorem cross_zero_right (a : Vec3) : cross a 0 = 0 := by
  ext <;> simp [cross]

theorem smul_zero' (k : ℚ) : k • (0 : Vec3) = 0 := by
  ext <;> simp

theorem smul_add' (k : ℚ) (a b : Vec3) : k • (a + b) = k • a + k • b := by
  ext <;> simp <;> ring

theorem smul_sub' (k : ℚ) (a b : Vec3) : k • (a - b) = k • a - k • b := by
  ext <;> simp <;> ring

theorem cross_smul_smul (k : ℚ) (a b : Vec3) :
    cross (k • a) (k • b) = (k * k) • cross a b := by
  ext <;> simp [cross] <;> ring

end Vec3

/-!
## The embedding of `build_smooth_normals`

```rust
fn build_smooth_normals(vertices : &[Vector3<f32>], indices : &[u32],
                        output : &mut Vec<Vector3<f32>>) {
    for &v in vertices.iter() {
        output.push(v);
        output.push(vec3(0.0, 0.0, 0.0));
    }
    for i in range_step(0, indices.len(), 3) {
        let v0 : Vector3<f32> = vertices[indices[i] as usize];
        let v1 : Vector3<f32> = vertices[indices[i+1] as usize];
        let v2 : Vector3<f32> = vertices[indices[i+2] as usize];
        let n = (v1 - v0).cross(v2 - v0);
        for j in 0..3 {
            output[(indices[i+j]*2 + 1) as usize] =
                output[(indices[i+j]*2 + 1) as usize] + n;
        }
    }
}
```
-/

/-- The first loop of `build_smooth_normals`: for each vertex push the
vertex and then a zero vector onto the output. -/
def interleaveZeros : List Vec3 → List Vec3
  | [] => []
  | v :: rest => v :: 0 :: interleaveZeros rest

/-- `output[k] = output[k] + n`, failing (`none`) when `k` is out of bounds,
as slice indexing panics in the source. -/
def addAt (out : List Vec3) (k : ℕ) (n : Vec3) : Option (List Vec3) := do
  let cur ← out[k]?
  some (out.set k (cur + n))

/-- One iteration of the triangle loop of `build_smooth_normals`, at offset
`i` into `indices`: fetch the three corner positions (each slice access may
panic, i.e. return `none`), form the face normal, and accumulate it into the
output slots `indices[i+j]*2 + 1`. -/
def accumTriangle (vertices : List Vec3) (indices : List ℕ) (i : ℕ)
    (out : List Vec3) : Option (List Vec3) := do
  let i0 ← indices[i]?
  let v0 ← vertices[i0]?
  let i1 ← indices[i + 1]?
  let v1 ← vertices[i1]?
  let i2 ← indices[i + 2]?
  let v2 ← vertices[i2]?
  let n := Vec3.cross (v1 - v0) (v2 - v0)
  let out1 ← addAt out (i0 * 2 + 1) n
  let out2 ← addAt out1 (i1 * 2 + 1) n
  addAt out2 (i2 * 2 + 1) n

/-- The offsets visited by `range_step(0, n, 3)`: `0, 3, 6, …`, all below
`n`. -/
def stepOffsets (n : ℕ) : List ℕ := (List.range ((n + 2) / 3)).map (· * 3)

/-- The model of `build_smooth_normals`.  `output` is the initial content of
the output vector (empty at the only call site); the returned value is its
final content, or `none` when the source would panic on an out-of-bounds
slice access. -/
def build_smooth_normals (vertices : List Vec3) (indices : List ℕ)
    (output : List Vec3) : Option (List Vec3) :=
  (stepOffsets indices.length).foldlM
    (fun out i => accumTriangle vertices indices i out)
    (output ++ interleaveZeros vertices)

/-!
## Specification-side definitions
-/

/-- The list of triangles named by consecutive index triples. -/
def triangles : List ℕ → List (ℕ × ℕ × ℕ)
  | i0 :: i1 :: i2 :: rest => (i0, i1, i2) :: triangles rest
  | _ => []

/-- The raw (non-unit) face normal `(v1 - v0) × (v2 - v0)` of a triangle,
positions fetched by index (out-of-range indices default to the zero
vector; all uses are under in-bounds hypotheses). -/
def faceNormal (vertices : List Vec3) (t : ℕ × ℕ × ℕ) : Vec3 :=
  Vec3.cross (vertices.getD t.2.1 0 - vertices.getD t.1 0)
    (vertices.getD t.2.2 0 - vertices.getD t.1 0)

/-- Whether triangle `t` references vertex `i`. -/
def refersTo (t : ℕ × ℕ × ℕ) (i : ℕ) : Bool :=
  t.1 == i || t.2.1 == i || t.2.2 == i

/-- The contribution of one processed triangle to the accumulated normal of
vertex `i`: one copy of its face normal per corner slot equal to `i`. -/
def contrib (vertices : List Vec3) (t : ℕ × ℕ × ℕ) (i : ℕ) : Vec3 :=
  (if t.1 = i then faceNormal vertices t else 0) +
    (if t.2.1 = i then faceNormal vertices t else 0) +
    (if t.2.2 = i then faceNormal vertices t else 0)

/-- The accumulated normal of vertex `i`: the sum of the per-triangle
contributions over all triangles, in processing order. -/
def accNormal (vertices : List Vec3) (indices : List ℕ) (i : ℕ) : Vec3 :=
  ((triangles indices).map (fun t => contrib vertices t i)).sum

/-- The specification's smooth normal of vertex `i`: the sum, over every
triangle that references `i` (each such triangle once), of its raw face
normal. -/
def smoothNormal (vertices : List Vec3) (indices : List ℕ) (i : ℕ) : Vec3 :=
  (((triangles indices).filter (fun t => refersTo t i)).map
    (faceNormal vertices)).sum

/-- The triangle loop rephrased as structural recursion over index triples:
used as a stepping stone, proved equal to the offset-driven loop. -/
def applyTri (vertices : List Vec3) (t : ℕ × ℕ × ℕ)
    (out : List Vec3) : Option (List Vec3) := do
  let v0 ← vertices[t.1]?
  let v1 ← vertices[t.2.1]?
  let v2 ← vertices[t.2.2]?
  let n := Vec3.cross (v1 - v0) (v2 - v0)
  let out1 ← addAt out (t.1 * 2 + 1) n
  let out2 ← addAt out1 (t.2.1 * 2 + 1) n
  addAt out2 (t.2.2 * 2 + 1) n

/-- Chunked form of the triangle loop: consume three indices at a time;
with one or two indices left the source reads past the end of `indices`
and panics (`none`). -/
def runTriangles (vertices : List Vec3) : List ℕ → List Vec3 → Option (List Vec3)
  | i0 :: i1 :: i2 :: rest, out => do
      let out' ← applyTri vertices (i0, i1, i2) out
      runTriangles vertices rest out'
  | [], out => some out
  | _, _ => none

/-!
## Equivalence of the offset-driven loop with the chunked recursion
-/

theorem stepOffsets_zero : stepOffsets 0 = [] := rfl

theorem stepOffsets_one : stepOffsets 1 = [0] := rfl

theorem stepOffsets_two : stepOffsets 2 = [0] := rfl

theorem stepOffsets_add_three (n : ℕ) :
    stepOffsets (n + 3) = 0 :: (stepOffsets n).map (· + 3) := by
  unfold stepOffsets
  have h : (n + 3 + 2) / 3 = (n + 2) / 3 + 1 := by omega
  rw [h, List.range_succ_eq_map]
  simp [List.map_map, Function.comp]
  intro a _
  omega

theorem getElem?_cons3 {α : Type} (a b c : α) (l : List α) (j : ℕ) :
    (a :: b :: c :: l)[j + 3]? = l[j]? := by
  have h3 : j + 3 = j + 1 + 1 + 1 := by omega
  rw [h3]
  simp

theorem accumTriangle_shift (V : List Vec3) (a b c : ℕ) (rest : List ℕ)
    (i : ℕ) (out : List Vec3) :
    accumTriangle V (a :: b :: c :: rest) (i + 3) out
      = accumTriangle V rest i out := by
  unfold accumTriangle
  rw [getElem?_cons3, show i + 3 + 1 = i + 1 + 3 by omega, getElem?_cons3,
    show i + 3 + 2 = i + 2 + 3 by omega, getElem?_cons3]

theorem accumTriangle_zero (V : List Vec3) (a b c : ℕ) (rest : List ℕ)
    (out : List Vec3) :
    accumTriangle V (a :: b :: c :: rest) 0 out = applyTri V (a, b, c) out := by
  unfold accumTriangle applyTri
  simp

theorem foldlM_congr_fun {α β : Type} (f g : β → α → Option β)
    (h : ∀ b a, f b a = g b a) :
    ∀ (l : List α) (b : β), l.foldlM f b = l.foldlM g b := by
  intro l
  induction l with
  | nil => intro b; rfl
  | cons a l ih =>
      intro b
      simp only [List.foldlM_cons, h]
      cases g b a with
      | none => rfl
      | some b' => simp [ih]

theorem accumTriangle_oob_one (V : List Vec3) (a : ℕ) (out : List Vec3) :
    accumTriangle V [a] 0 out = none := by
  unfold accumTriangle
  simp

theorem accumTriangle_oob_two (V : List Vec3) (a b : ℕ) (out : List Vec3) :
    accumTriangle V [a, b] 0 out = none := by
  unfold accumTriangle
  simp

theorem foldOffsets_eq_run_aux (V : List Vec3) :
    ∀ (n : ℕ) (I : List ℕ), I.length ≤ n → ∀ (out : List Vec3),
      (stepOffsets I.length).foldlM
          (fun o i => accumTriangle V I i o) out
        = runTriangles V I out := by
  intro n
  induction n with
  | zero =>
      intro I hI out
      have : I = [] := List.length_eq_zero.mp (Nat.le_zero.mp hI)
      subst this
      rfl
  | succ n ih =>
      intro I hI out
      match I with
      | [] => rfl
      | [a] =>
          rw [show ([a] : List ℕ).length = 1 from rfl, stepOffsets_one,
            List.foldlM_cons, accumTriangle_oob_one]
          rfl
      | [a, b] =>
          rw [show ([a, b] : List ℕ).length = 2 from rfl, stepOffsets_two,
            List.foldlM_cons, accumTriangle_oob_two]
          rfl
      | a :: b :: c :: rest =>
          have hlen : (a :: b :: c :: rest).length = rest.length + 3 := by
            simp only [List.length_cons]
          rw [hlen, stepOffsets_add_three]
          simp only [List.foldlM_cons, accumTriangle_zero]
          cases hstep : applyTri V (a, b, c) out with
          | none => simp [runTriangles, hstep]
          | some out' =>
              simp only [runTriangles, hstep, Option.bind_eq_bind,
                Option.some_bind]
              rw [List.foldlM_map]
              rw [foldlM_congr_fun _ (fun o i => accumTriangle V rest i o)
                (fun o i => accumTriangle_shift V a b c rest i o)]
              have hrest : rest.length ≤ n := by
                have h1 : (a :: b :: c :: rest).length ≤ n + 1 := hI
                rw [hlen] at h1
                omega
              exact ih rest hrest out'

theorem build_eq_runTriangles (V : List Vec3) (I : List ℕ)
    (out0 : List Vec3) :
    build_smooth_normals V I out0
      = runTriangles V I (out0 ++ interleaveZeros V) :=
  foldOffsets_eq_run_aux V I.length I le_rfl _

/-!
## Characterization of one processed triangle
-/

theorem Vec3.sub_self' (a : Vec3) : a - a = 0 := by
  ext <;> simp

/-- `out` with `n` added into slot `k` (total form of a successful `addAt`). -/
def bump (out : List Vec3) (k : ℕ) (n : Vec3) : List Vec3 :=
  out.set k (out.getD k 0 + n)

@[simp] theorem bump_length (out : List Vec3) (k : ℕ) (n : Vec3) :
    (bump out k n).length = out.length := by
  simp [bump]

theorem getD_bump_eq (out : List Vec3) (k : ℕ) (n : Vec3)
    (hk : k < out.length) :
    (bump out k n).getD k 0 = out.getD k 0 + n := by
  simp [bump, List.getD_eq_getElem?_getD, List.getElem?_set_self hk]

theorem getD_bump_ne (out : List Vec3) (k m : ℕ) (n : Vec3) (hm : m ≠ k) :
    (bump out k n).getD m 0 = out.getD m 0 := by
  simp [bump, List.getD_eq_getElem?_getD, List.getElem?_set_ne (Ne.symm hm)]

theorem getD_bump (out : List Vec3) (k m : ℕ) (n : Vec3)
    (hk : k < out.length) :
    (bump out k n).getD m 0 = out.getD m 0 + (if m = k then n else 0) := by
  by_cases h : m = k
  · subst h
    rw [getD_bump_eq _ _ _ hk, if_pos rfl]
  · rw [getD_bump_ne _ _ _ _ h, if_neg h, add_zero]

theorem addAt_eq (out : List Vec3) (k : ℕ) (n : Vec3) (hk : k < out.length) :
    addAt out k n = some (bump out k n) := by
  simp [addAt, bump, List.getElem?_eq_getElem hk,
    List.getD_eq_getElem?_getD]

theorem faceNormal_eq_getElem (V : List Vec3) (a b c : ℕ)
    (ha : a < V.length) (hb : b < V.length) (hc : c < V.length) :
    faceNormal V (a, b, c) = Vec3.cross (V[b] - V[a]) (V[c] - V[a]) := by
  simp [faceNormal, List.getD_eq_getElem?_getD, List.getElem?_eq_getElem,
    ha, hb, hc]

theorem applyTri_eq (V : List Vec3) (a b c : ℕ) (out : List Vec3)
    (ha : a < V.length) (hb : b < V.length) (hc : c < V.length)
    (hout : 2 * V.length ≤ out.length) :
    applyTri V (a, b, c) out =
      some (bump (bump (bump out (a * 2 + 1) (faceNormal V (a, b, c)))
        (b * 2 + 1) (faceNormal V (a, b, c)))
        (c * 2 + 1) (faceNormal V (a, b, c))) := by
  have hka : a * 2 + 1 < out.length := by omega
  have hkb : b * 2 + 1 < out.length := by omega
  have hkc : c * 2 + 1 < out.length := by omega
  unfold applyTri
  rw [List.getElem?_eq_getElem ha, List.getElem?_eq_getElem hb,
    List.getElem?_eq_getElem hc]
  simp only [Option.bind_eq_bind, Option.some_bind]
  rw [addAt_eq _ _ _ hka]
  simp only [Option.some_bind]
  rw [addAt_eq _ _ _ (by simpa using hkb)]
  simp only [Option.some_bind]
  rw [addAt_eq _ _ _ (by simpa using hkc)]
  rw [faceNormal_eq_getElem V a b c ha hb hc]

theorem applyTri_getD_odd (V : List Vec3) (a b c : ℕ) (out out' : List Vec3)
    (ha : a < V.length) (hb : b < V.length) (hc : c < V.length)
    (hout : 2 * V.length ≤ out.length)
    (h : applyTri V (a, b, c) out = some out') (j : ℕ) :
    out'.getD (j * 2 + 1) 0
      = out.getD (j * 2 + 1) 0 + contrib V (a, b, c) j := by
  rw [applyTri_eq V a b c out ha hb hc hout] at h
  have hka : a * 2 + 1 < out.length := by omega
  have hkb : b * 2 + 1 < out.length := by omega
  have hkc : c * 2 + 1 < out.length := by omega
  cases h
  rw [getD_bump _ _ _ _ (by simpa using hkc),
    getD_bump _ _ _ _ (by simpa using hkb),
    getD_bump _ _ _ _ hka]
  simp only [show (j * 2 + 1 = a * 2 + 1) ↔ (a = j) by omega,
    show (j * 2 + 1 = b * 2 + 1) ↔ (b = j) by omega,
    show (j * 2 + 1 = c * 2 + 1) ↔ (c = j) by omega]
  rw [contrib]
  abel

theorem applyTri_getD_even (V : List Vec3) (a b c : ℕ) (out out' : List Vec3)
    (ha : a < V.length) (hb : b < V.length) (hc : c < V.length)
    (hout : 2 * V.length ≤ out.length)
    (h : applyTri V (a, b, c) out = some out') (j : ℕ) :
    out'.getD (j * 2) 0 = out.getD (j * 2) 0 := by
  rw [applyTri_eq V a b c out ha hb hc hout] at h
  have hka : a * 2 + 1 < out.length := by omega
  have hkb : b * 2 + 1 < out.length := by omega
  have hkc : c * 2 + 1 < out.length := by omega
  cases h
  rw [getD_bump _ _ _ _ (by simpa using hkc),
    getD_bump _ _ _ _ (by simpa using hkb),
    getD_bump _ _ _ _ hka]
  rw [if_neg (by omega : ¬(j * 2 = a * 2 + 1)),
    if_neg (by omega : ¬(j * 2 = b * 2 + 1)),
    if_neg (by omega : ¬(j * 2 = c * 2 + 1))]
  abel

theorem applyTri_length (V : List Vec3) (a b c : ℕ) (out out' : List Vec3)
    (ha : a < V.length) (hb : b < V.length) (hc : c < V.length)
    (hout : 2 * V.length ≤ out.length)
    (h : applyTri V (a, b, c) out = some out') :
    out'.length = out.length := by
  rw [applyTri_eq V a b c out ha hb hc hout] at h
  cases h
  simp

/-!
## Characterization of the whole run
-/

theorem accNormal_nil (V : List Vec3) (j : ℕ) : accNormal V [] j = 0 := rfl

theorem accNormal_cons3 (V : List Vec3) (a b c : ℕ) (rest : List ℕ) (j : ℕ) :
    accNormal V (a :: b :: c :: rest) j
      = contrib V (a, b, c) j + accNormal V rest j := by
  simp [accNormal, triangles]

theorem runTriangles_char (V : List Vec3) :
    ∀ (n : ℕ) (I : List ℕ), I.length ≤ n →
      ∀ (out : List Vec3), (∀ j ∈ I, j < V.length) → I.length % 3 = 0 →
        2 * V.length ≤ out.length →
        ∃ out', runTriangles V I out = some out' ∧
          out'.length = out.length ∧
          (∀ j, out'.getD (j * 2) 0 = out.getD (j * 2) 0) ∧
          (∀ j, out'.getD (j * 2 + 1) 0
            = out.getD (j * 2 + 1) 0 + accNormal V I j) := by
  intro n
  induction n with
  | zero =>
      intro I hI out hv h3 hout
      have : I = [] := List.length_eq_zero.mp (Nat.le_zero.mp hI)
      subst this
      exact ⟨out, rfl, rfl, fun j => rfl, fun j => by
        rw [accNormal_nil, add_zero]⟩
  | succ n ih =>
      intro I hI out hv h3 hout
      match I with
      | [] =>
          exact ⟨out, rfl, rfl, fun j => rfl, fun j => by
            rw [accNormal_nil, add_zero]⟩
      | [a] => simp at h3
      | [a, b] => simp at h3
      | a :: b :: c :: rest =>
          have ha : a < V.length := hv a (by simp)
          have hb : b < V.length := hv b (by simp)
          have hc : c < V.length := hv c (by simp)
          have hstep := applyTri_eq V a b c out ha hb hc hout
          have hlen1 : (bump (bump (bump out (a * 2 + 1)
              (faceNormal V (a, b, c))) (b * 2 + 1) (faceNormal V (a, b, c)))
              (c * 2 + 1) (faceNormal V (a, b, c))).length = out.length := by
            simp
          obtain ⟨out'', hrun, hlen2, heven, hodd⟩ :=
            ih rest (by simp at hI ⊢; omega) _
              (fun j hj => hv j (by simp [hj]))
              (by simp at h3 ⊢; omega)
              (by rw [hlen1]; exact hout)
          refine ⟨out'', ?_, ?_, ?_, ?_⟩
          · rw [runTriangles, hstep, Option.bind_eq_bind, Option.some_bind]
            exact hrun
          · rw [hlen2, hlen1]
          · intro j
            rw [heven j,
              applyTri_getD_even V a b c out _ ha hb hc hout hstep j]
          · intro j
            rw [hodd j,
              applyTri_getD_odd V a b c out _ ha hb hc hout hstep j,
              accNormal_cons3]
            abel

/-!
## The initialization loop
-/

theorem interleaveZeros_length (V : List Vec3) :
    (interleaveZeros V).length = 2 * V.length := by
  induction V with
  | nil => rfl
  | cons v rest ih => simp [interleaveZeros, ih]; omega

theorem interleaveZeros_getD_even (V : List Vec3) :
    ∀ j : ℕ, (interleaveZeros V).getD (j * 2) 0 = V.getD j 0 := by
  induction V with
  | nil => intro j; rfl
  | cons v rest ih =>
      intro j
      cases j with
      | zero => rfl
      | succ m =>
          rw [show (m + 1) * 2 = (m * 2) + 1 + 1 by omega]
          simp only [interleaveZeros, List.getD_cons_succ]
          exact ih m

theorem interleaveZeros_getD_odd (V : List Vec3) :
    ∀ j : ℕ, (interleaveZeros V).getD (j * 2 + 1) 0 = 0 := by
  induction V with
  | nil => intro j; rfl
  | cons v rest ih =>
      intro j
      cases j with
      | zero => rfl
      | succ m =>
          rw [show (m + 1) * 2 + 1 = (m * 2 + 1) + 1 + 1 by omega]
          simp only [interleaveZeros, List.getD_cons_succ]
          exact ih m

/-- Full characterization of `build_smooth_normals` on a valid mesh and an
initially empty output vector: it succeeds, the output interleaves the
unmodified positions (even slots) with the accumulated normals (odd
slots). -/
theorem build_char (V : List Vec3) (I : List ℕ)
    (hv : ∀ j ∈ I, j < V.length) (h3 : I.length % 3 = 0) :
    ∃ out, build_smooth_normals V I [] = some out ∧
      out.length = 2 * V.length ∧
      (∀ j, out.getD (j * 2) 0 = V.getD j 0) ∧
      (∀ j, out.getD (j * 2 + 1) 0 = accNormal V I j) := by
  obtain ⟨out, hrun, hlen, heven, hodd⟩ :=
    runTriangles_char V I.length I le_rfl (interleaveZeros V) hv h3
      (le_of_eq (interleaveZeros_length V).symm)
  refine ⟨out, ?_, ?_, ?_, ?_⟩
  · rw [build_eq_runTriangles, List.nil_append]
    exact hrun
  · rw [hlen, interleaveZeros_length]
  · intro j
    rw [heven j, interleaveZeros_getD_even]
  · intro j
    rw [hodd j, interleaveZeros_getD_odd, zero_add]

/-!
## Bridging the accumulated sum with the specification sum
-/

theorem faceNormal_deg (V : List Vec3) (a b c : ℕ)
    (h : a = b ∨ b = c ∨ a = c) : faceNormal V (a, b, c) = 0 := by
  rcases h with h | h | h
  · subst h
    simp [faceNormal, Vec3.sub_self']
  · subst h
    simp [faceNormal]
  · subst h
    simp [faceNormal, Vec3.sub_self']

theorem contrib_eq (V : List Vec3) (t : ℕ × ℕ × ℕ) (j : ℕ) :
    contrib V t j = if refersTo t j then faceNormal V t else 0 := by
  obtain ⟨a, b, c⟩ := t
  by_cases h1 : a = j <;> by_cases h2 : b = j <;> by_cases h3 : c = j
  · simp [contrib, refersTo, h1, h2, h3]
    rw [faceNormal_deg V j j j (Or.inl rfl)]
    simp
  · simp [contrib, refersTo, h1, h2, h3]
    rw [faceNormal_deg V j j c (Or.inl rfl)]
    simp
  · simp [contrib, refersTo, h1, h2, h3]
    rw [faceNormal_deg V j b j (Or.inr (Or.inr rfl))]
    simp
  · simp [contrib, refersTo, h1, h2, h3]
  · simp [contrib, refersTo, h1, h2, h3]
    rw [faceNormal_deg V a j j (Or.inr (Or.inl rfl))]
    simp
  · simp [contrib, refersTo, h1, h2, h3]
  · simp [contrib, refersTo, h1, h2, h3]
  · simp [contrib, refersTo, h1, h2, h3]

theorem contribSum_filter (V : List Vec3) (j : ℕ) :
    ∀ L : List (ℕ × ℕ × ℕ),
      (L.map (fun t => contrib V t j)).sum
        = ((L.filter (fun t => refersTo t j)).map (faceNormal V)).sum := by
  intro L
  induction L with
  | nil => rfl
  | cons t L ih =>
      rw [List.map_cons, List.sum_cons, ih, contrib_eq]
      by_cases h : refersTo t j
      · rw [if_pos h, List.filter_cons_of_pos (by simpa using h),
          List.map_cons, List.sum_cons]
      · rw [if_neg h, List.filter_cons_of_neg (by simpa using h), zero_add]

theorem accNormal_eq_smoothNormal (V : List Vec3) (I : List ℕ) (j : ℕ) :
    accNormal V I j = smoothNormal V I j :=
  contribSum_filter V j (triangles I)

theorem mem_triangles :
    ∀ (n : ℕ) (I : List ℕ), I.length ≤ n →
      ∀ t ∈ triangles I, t.1 ∈ I ∧ t.2.1 ∈ I ∧ t.2.2 ∈ I := by
  intro n
  induction n with
  | zero =>
      intro I hI t ht
      have : I = [] := List.length_eq_zero.mp (Nat.le_zero.mp hI)
      subst this
      simp [triangles] at ht
  | succ n ih =>
      intro I hI t ht
      match I with
      | [] => simp [triangles] at ht
      | [a] => simp [triangles] at ht
      | [a, b] => simp [triangles] at ht
      | a :: b :: c :: rest =>
          rw [triangles] at ht
          rcases List.mem_cons.mp ht with h | h
          · subst h
            simp
          · have hrest : rest.length ≤ n := by
              simp at hI
              omega
            obtain ⟨h1, h2, h3⟩ := ih rest hrest t h
            exact ⟨by simp [h1], by simp [h2], by simp [h3]⟩

theorem sum_eq_zero_vec :
    ∀ (L : List Vec3), (∀ v ∈ L, v = 0) → L.sum = 0 := by
  intro L
  induction L with
  | nil => intro _; rfl
  | cons a L ih =>
      intro h
      rw [List.sum_cons, h a (by simp),
        ih (fun v hv => h v (by simp [hv])), add_zero]

/-!
## Scaling helpers
-/

theorem smul_list_sum (k : ℚ) :
    ∀ (L : List Vec3), (L.map (fun v => k • v)).sum = k • L.sum := by
  intro L
  induction L with
  | nil => simp [Vec3.smul_zero']
  | cons a L ih =>
      rw [List.map_cons, List.sum_cons, List.sum_cons, ih, Vec3.smul_add']

theorem getD_map_smul (k : ℚ) (V : List Vec3) (i : ℕ) :
    (V.map (fun v => k • v)).getD i 0 = k • V.getD i 0 := by
  rcases Nat.lt_or_ge i V.length with h | h
  · rw [List.getD_eq_getElem?_getD, List.getD_eq_getElem?_getD,
      List.getElem?_map, List.getElem?_eq_getElem h]
    rfl
  · rw [List.getD_eq_getElem?_getD, List.getD_eq_getElem?_getD,
      List.getElem?_eq_none (by simpa using h),
      List.getElem?_eq_none h]
    rw [show ((none : Option Vec3).getD 0) = 0 from rfl, Vec3.smul_zero']

theorem faceNormal_smul (k : ℚ) (V : List Vec3) (t : ℕ × ℕ × ℕ) :
    faceNormal (V.map (fun v => k • v)) t = (k * k) • faceNormal V t := by
  unfold faceNormal
  rw [getD_map_smul, getD_map_smul, getD_map_smul, ← Vec3.smul_sub',
    ← Vec3.smul_sub', Vec3.cross_smul_smul]

theorem smul_ite (k : ℚ) (P : Prop) [Decidable P] (n : Vec3) :
    (if P then k • n else 0) = k • (if P then n else 0) := by
  split_ifs with h
  · rfl
  · rw [Vec3.smul_zero']

theorem contrib_smul (k : ℚ) (V : List Vec3) (t : ℕ × ℕ × ℕ) (j : ℕ) :
    contrib (V.map (fun v => k • v)) t j = (k * k) • contrib V t j := by
  unfold contrib
  rw [faceNormal_smul k V t, smul_ite, smul_ite, smul_ite,
    ← Vec3.smul_add', ← Vec3.smul_add']

theorem accNormal_smul (k : ℚ) (V : List Vec3) (I : List ℕ) (j : ℕ) :
    accNormal (V.map (fun v => k • v)) I j = (k * k) • accNormal V I j := by
  unfold accNormal
  have h : (triangles I).map (fun t => contrib (V.map (fun v => k • v)) t j)
      = ((triangles I).map (fun t => contrib V t j)).map
        (fun v => (k * k) • v) := by
    rw [List.map_map]
    refine List.map_congr_left ?_
    intro t _
    exact contrib_smul k V t j
  rw [h, smul_list_sum]

/-!
## The parallel normals view of the interleaved output
-/

/-- The odd-position elements of the interleaved output buffer: the
per-vertex normals as an ordered sequence parallel to the positions. -/
def normalsOf : List Vec3 → List Vec3
  | _ :: b :: rest => b :: normalsOf rest
  | _ => []

theorem normalsOf_length :
    ∀ (n : ℕ) (l : List Vec3), l.length ≤ n →
      (normalsOf l).length = l.length / 2 := by
  intro n
  induction n with
  | zero =>
      intro l hl
      have : l = [] := List.length_eq_zero.mp (Nat.le_zero.mp hl)
      subst this
      rfl
  | succ n ih =>
      intro l hl
      match l with
      | [] => rfl
      | [a] => simp [normalsOf]
      | a :: b :: rest =>
          have hr : rest.length ≤ n := by
            simp at hl
            omega
          show (normalsOf rest).length + 1 = (rest.length + 1 + 1) / 2
          rw [ih rest hr]
          omega

theorem normalsOf_getD :
    ∀ (n : ℕ) (l : List Vec3), l.length ≤ n → ∀ j : ℕ,
      (normalsOf l).getD j 0 = l.getD (j * 2 + 1) 0 := by
  intro n
  induction n with
  | zero =>
      intro l hl j
      have : l = [] := List.length_eq_zero.mp (Nat.le_zero.mp hl)
      subst this
      rfl
  | succ n ih =>
      intro l hl j
      match l with
      | [] => rfl
      | [a] =>
          show (0 : Vec3) = List.getD [a] (j * 2 + 1) 0
          rw [List.getD_eq_getElem?_getD,
            List.getElem?_eq_none (by simp)]
          rfl
      | a :: b :: rest =>
          have hr : rest.length ≤ n := by
            simp at hl
            omega
          cases j with
          | zero => rfl
          | succ m =>
              show (normalsOf rest).getD m 0
                = (a :: b :: rest).getD ((m + 1) * 2 + 1) 0
              rw [show (m + 1) * 2 + 1 = (m * 2 + 1) + 1 + 1 by omega,
                List.getD_cons_succ, List.getD_cons_succ]
              exact ih rest hr m

/-!
## Helpers for degenerate triangles and partial triples
-/

theorem set_getD_self :
    ∀ (l : List Vec3) (k : ℕ), k < l.length → l.set k (l.getD k 0) = l := by
  intro l
  induction l with
  | nil =>
      intro k hk
      simp at hk
  | cons a l ih =>
      intro k hk
      cases k with
      | zero => rfl
      | succ m =>
          simp only [List.getD_cons_succ, List.set_cons_succ]
          rw [ih m (by simp at hk; omega)]

theorem bump_zero (out : List Vec3) (k : ℕ) (hk : k < out.length) :
    bump out k 0 = out := by
  unfold bump
  rw [add_zero, set_getD_self out k hk]

theorem runTriangles_partial (V : List Vec3) :
    ∀ (n : ℕ) (I : List ℕ), I.length ≤ n →
      (∀ j ∈ I, j < V.length) → I.length % 3 ≠ 0 →
      ∀ out : List Vec3, 2 * V.length ≤ out.length →
      runTriangles V I out = none := by
  intro n
  induction n with
  | zero =>
      intro I hI hv h3 out hout
      have : I = [] := List.length_eq_zero.mp (Nat.le_zero.mp hI)
      subst this
      simp at h3
  | succ n ih =>
      intro I hI hv h3 out hout
      match I with
      | [] => simp at h3
      | [a] => rfl
      | [a, b] => rfl
      | a :: b :: c :: rest =>
          have ha : a < V.length := hv a (by simp)
          have hb : b < V.length := hv b (by simp)
          have hc : c < V.length := hv c (by simp)
          rw [runTriangles, applyTri_eq V a b c out ha hb hc hout,
            Option.bind_eq_bind, Option.some_bind]
          refine ih rest ?_ (fun j hj => hv j (by simp [hj])) ?_ _ ?_
          · simp at hI
            omega
          · simp at h3 ⊢
            omega
          · simp
            exact hout

end Iso

namespace IsoField

/-!
## The torus distance field

```rust
fn torus(x : f32, y : f32, z : f32) -> f32 {
    const R1 : f32 = 1.0 / 4.0;
    const R2 : f32 = 1.0 / 10.0;
    let q_x = ((x*x + y*y).sqrt()).abs() - R1;
    let len = (q_x*q_x + z*z).sqrt();
    len - R2
}

impl marching_cubes::Source for Torus {
    fn sample(&self, x : f32, y : f32, z : f32) -> f32 {
        torus(x - 0.5, y - 0.5, z - 0.5)
    }
}
```

modelled with exact real arithmetic.
-/

/-- The distance-field equation for a torus (`fn torus` in the source). -/
noncomputable def torus (x y z : ℝ) : ℝ :=
  let R1 : ℝ := 1 / 4
  let R2 : ℝ := 1 / 10
  let q_x : ℝ := |Real.sqrt (x * x + y * y)| - R1
  let len : ℝ := Real.sqrt (q_x * q_x + z * z)
  len - R2

/-- `<Torus as Source>::sample`: the torus field recentered at the middle
`(0.5, 0.5, 0.5)` of the unit-cube sampling domain. -/
noncomputable def Torus.sample (x y z : ℝ) : ℝ :=
  torus (x - 0.5) (y - 0.5) (z - 0.5)

end IsoField

namespace Iso

/-!
## The claims
-/

/-- C1: on a valid mesh (indices in bounds, index count a multiple of 3),
the accumulated normal of vertex `j` equals the unnormalized sum, over
every triangle referencing `j`, of `(v1 - v0) × (v2 - v0)`; in particular a
single isolated triangle gives each of its vertices exactly its raw face
normal, and two triangles sharing an edge give the shared vertices the sum
of both face normals and the unshared vertices their own triangle's face
normal.  No normalization to unit length is applied. -/
theorem claim1_normal_accumulation :
    (∀ (V : List Vec3) (I : List ℕ),
      (∀ j ∈ I, j < V.length) → I.length % 3 = 0 →
      ∃ out, build_smooth_normals V I [] = some out ∧
        ∀ j, out.getD (j * 2 + 1) 0 = smoothNormal V I j) ∧
    (∀ a b c : Vec3,
      ∃ out, build_smooth_normals [a, b, c] [0, 1, 2] [] = some out ∧
        (out.getD 1 0 = Vec3.cross (b - a) (c - a) ∧
          out.getD 3 0 = Vec3.cross (b - a) (c - a) ∧
          out.getD 5 0 = Vec3.cross (b - a) (c - a))) ∧
    (∀ a b c d : Vec3,
      ∃ out,
        build_smooth_normals [a, b, c, d] [0, 1, 2, 0, 2, 3] [] = some out ∧
        (out.getD 1 0
            = Vec3.cross (b - a) (c - a) + Vec3.cross (c - a) (d - a) ∧
          out.getD 3 0 = Vec3.cross (b - a) (c - a) ∧
          out.getD 5 0
            = Vec3.cross (b - a) (c - a) + Vec3.cross (c - a) (d - a) ∧
          out.getD 7 0 = Vec3.cross (c - a) (d - a))) := by
  have main : ∀ (V : List Vec3) (I : List ℕ),
      (∀ j ∈ I, j < V.length) → I.length % 3 = 0 →
      ∃ out, build_smooth_normals V I [] = some out ∧
        ∀ j, out.getD (j * 2 + 1) 0 = smoothNormal V I j := by
    intro V I hv h3
    obtain ⟨out, hb, _, _, hodd⟩ := build_char V I hv h3
    exact ⟨out, hb, fun j => by rw [hodd j, accNormal_eq_smoothNormal]⟩
  refine ⟨main, ?_, ?_⟩
  · intro a b c
    obtain ⟨out, hb, hodd⟩ := main [a, b, c] [0, 1, 2]
      (by intro j hj; simp at hj ⊢; omega) (by rfl)
    refine ⟨out, hb, ?_, ?_, ?_⟩
    · have h := hodd 0
      rw [show (0 * 2 + 1 : ℕ) = 1 by norm_num] at h
      rw [h]
      simp [smoothNormal, triangles, refersTo, faceNormal]
    · have h := hodd 1
      rw [show (1 * 2 + 1 : ℕ) = 3 by norm_num] at h
      rw [h]
      simp [smoothNormal, triangles, refersTo, faceNormal]
    · have h := hodd 2
      rw [show (2 * 2 + 1 : ℕ) = 5 by norm_num] at h
      rw [h]
      simp [smoothNormal, triangles, refersTo, faceNormal]
  · intro a b c d
    obtain ⟨out, hb, hodd⟩ := main [a, b, c, d] [0, 1, 2, 0, 2, 3]
      (by intro j hj; simp at hj ⊢; omega) (by rfl)
    refine ⟨out, hb, ?_, ?_, ?_, ?_⟩
    · have h := hodd 0
      rw [show (0 * 2 + 1 : ℕ) = 1 by norm_num] at h
      rw [h]
      simp [smoothNormal, triangles, refersTo, faceNormal]
    · have h := hodd 1
      rw [show (1 * 2 + 1 : ℕ) = 3 by norm_num] at h
      rw [h]
      simp [smoothNormal, triangles, refersTo, faceNormal]
    · have h := hodd 2
      rw [show (2 * 2 + 1 : ℕ) = 5 by norm_num] at h
      rw [h]
      simp [smoothNormal, triangles, refersTo, faceNormal]
    · have h := hodd 3
      rw [show (3 * 2 + 1 : ℕ) = 7 by norm_num] at h
      rw [h]
      simp [smoothNormal, triangles, refersTo, faceNormal]

theorem claim1_normal_accumulation_witness :
    ∃ out,
      build_smooth_normals [⟨0, 0, 0⟩, ⟨1, 0, 0⟩, ⟨0, 1, 0⟩] [0, 1, 2] []
        = some out ∧
      ∀ j, out.getD (j * 2 + 1) 0
        = smoothNormal [⟨0, 0, 0⟩, ⟨1, 0, 0⟩, ⟨0, 1, 0⟩] [0, 1, 2] j :=
  claim1_normal_accumulation.1 [⟨0, 0, 0⟩, ⟨1, 0, 0⟩, ⟨0, 1, 0⟩] [0, 1, 2]
    (by decide) (by decide)

/-- C2: on a valid mesh the normals produced form an ordered sequence of
the same length and indexing as the positions: `normals[i]` is the smooth
normal of vertex `i`. -/
theorem claim2_parallel_normals (V : List Vec3) (I : List ℕ)
    (hv : ∀ j ∈ I, j < V.length) (h3 : I.length % 3 = 0) :
    ∃ out, build_smooth_normals V I [] = some out ∧
      (normalsOf out).length = V.length ∧
      ∀ j, (normalsOf out).getD j 0 = smoothNormal V I j := by
  obtain ⟨out, hb, hlen, heven, hodd⟩ := build_char V I hv h3
  refine ⟨out, hb, ?_, ?_⟩
  · rw [normalsOf_length out.length out le_rfl, hlen]
    omega
  · intro j
    rw [normalsOf_getD out.length out le_rfl j, hodd j,
      accNormal_eq_smoothNormal]

theorem claim2_parallel_normals_witness :
    ∃ out,
      build_smooth_normals [⟨0, 0, 0⟩, ⟨1, 0, 0⟩, ⟨0, 1, 0⟩] [0, 1, 2] []
        = some out ∧
      (normalsOf out).length
        = ([⟨0, 0, 0⟩, ⟨1, 0, 0⟩, ⟨0, 1, 0⟩] : List Vec3).length ∧
      ∀ j, (normalsOf out).getD j 0
        = smoothNormal [⟨0, 0, 0⟩, ⟨1, 0, 0⟩, ⟨0, 1, 0⟩] [0, 1, 2] j :=
  claim2_parallel_normals [⟨0, 0, 0⟩, ⟨1, 0, 0⟩, ⟨0, 1, 0⟩] [0, 1, 2]
    (by decide) (by decide)

/-- C3: with all indices in bounds (and a multiple-of-3 index count) the
run completes normally; an out-of-bounds index makes it fail (the panic
branch, modelled `none`) instead of clamping or skipping. -/
theorem claim3_bounds :
    (∀ (V : List Vec3) (I : List ℕ),
      (∀ j ∈ I, j < V.length) → I.length % 3 = 0 →
      (build_smooth_normals V I []).isSome) ∧
    build_smooth_normals [⟨0, 0, 0⟩] [0, 0, 1] [] = none := by
  constructor
  · intro V I hv h3
    obtain ⟨out, hb, _⟩ := build_char V I hv h3
    rw [hb]
    rfl
  · decide

theorem claim3_bounds_witness :
    (build_smooth_normals [⟨0, 0, 0⟩, ⟨1, 0, 0⟩, ⟨0, 1, 0⟩] [0, 1, 2]
      []).isSome :=
  claim3_bounds.1 [⟨0, 0, 0⟩, ⟨1, 0, 0⟩, ⟨0, 1, 0⟩] [0, 1, 2]
    (by decide) (by decide)

/-- C4: processing the triangles in any permuted order yields the same
output normal for every vertex. -/
theorem claim4_order_independence (V : List Vec3) (I J : List ℕ)
    (hv : ∀ j ∈ I, j < V.length) (hw : ∀ j ∈ J, j < V.length)
    (h3 : I.length % 3 = 0) (h3' : J.length % 3 = 0)
    (hperm : List.Perm (triangles J) (triangles I)) :
    ∃ out out', build_smooth_normals V I [] = some out ∧
      build_smooth_normals V J [] = some out' ∧
      ∀ j, out'.getD (j * 2 + 1) 0 = out.getD (j * 2 + 1) 0 := by
  obtain ⟨out, hb, _, _, hodd⟩ := build_char V I hv h3
  obtain ⟨out', hb', _, _, hodd'⟩ := build_char V J hw h3'
  refine ⟨out, out', hb, hb', ?_⟩
  intro j
  rw [hodd j, hodd' j]
  exact (hperm.map (fun t => contrib V t j)).sum_eq

theorem claim4_order_independence_witness :
    ∃ out out',
      build_smooth_normals [⟨0, 0, 0⟩, ⟨1, 0, 0⟩, ⟨0, 1, 0⟩, ⟨1, 1, 0⟩]
        [0, 1, 2, 0, 2, 3] [] = some out ∧
      build_smooth_normals [⟨0, 0, 0⟩, ⟨1, 0, 0⟩, ⟨0, 1, 0⟩, ⟨1, 1, 0⟩]
        [0, 2, 3, 0, 1, 2] [] = some out' ∧
      ∀ j, out'.getD (j * 2 + 1) 0 = out.getD (j * 2 + 1) 0 :=
  claim4_order_independence [⟨0, 0, 0⟩, ⟨1, 0, 0⟩, ⟨0, 1, 0⟩, ⟨1, 1, 0⟩]
    [0, 1, 2, 0, 2, 3] [0, 2, 3, 0, 1, 2]
    (by decide) (by decide) (by decide) (by decide) (by decide)

/-- C5: starting from an empty output vector, the output has length
`2 * vertices.len()` with the unmodified position of vertex `i` at slot
`2*i` and its accumulated normal at slot `2*i + 1`: an interleaved
position/normal buffer. -/
theorem claim5_interleaved_output (V : List Vec3) (I : List ℕ)
    (hv : ∀ j ∈ I, j < V.length) (h3 : I.length % 3 = 0) :
    ∃ out, build_smooth_normals V I [] = some out ∧
      out.length = 2 * V.length ∧
      (∀ j, j < V.length → out.getD (2 * j) 0 = V.getD j 0) ∧
      (∀ j, j < V.length → out.getD (2 * j + 1) 0 = smoothNormal V I j) := by
  obtain ⟨out, hb, hlen, heven, hodd⟩ := build_char V I hv h3
  refine ⟨out, hb, hlen, ?_, ?_⟩
  · intro j _
    rw [show 2 * j = j * 2 by ring, heven j]
  · intro j _
    rw [show 2 * j = j * 2 by ring, hodd j, accNormal_eq_smoothNormal]

theorem claim5_interleaved_output_witness :
    ∃ out,
      build_smooth_normals [⟨0, 0, 0⟩, ⟨1, 0, 0⟩, ⟨0, 1, 0⟩] [0, 1, 2] []
        = some out ∧
      out.length = 2 * ([⟨0, 0, 0⟩, ⟨1, 0, 0⟩, ⟨0, 1, 0⟩] : List Vec3).length ∧
      (∀ j, j < ([⟨0, 0, 0⟩, ⟨1, 0, 0⟩, ⟨0, 1, 0⟩] : List Vec3).length →
        out.getD (2 * j) 0
          = ([⟨0, 0, 0⟩, ⟨1, 0, 0⟩, ⟨0, 1, 0⟩] : List Vec3).getD j 0) ∧
      (∀ j, j < ([⟨0, 0, 0⟩, ⟨1, 0, 0⟩, ⟨0, 1, 0⟩] : List Vec3).length →
        out.getD (2 * j + 1) 0
          = smoothNormal [⟨0, 0, 0⟩, ⟨1, 0, 0⟩, ⟨0, 1, 0⟩] [0, 1, 2] j) :=
  claim5_interleaved_output [⟨0, 0, 0⟩, ⟨1, 0, 0⟩, ⟨0, 1, 0⟩] [0, 1, 2]
    (by decide) (by decide)

/-- C7: a triangle whose three indices are not all distinct has zero face
normal, contributes the zero vector to every vertex's accumulated normal,
and is processed without error (the output is left unchanged). -/
theorem claim7_degenerate_triangle (V : List Vec3) (a b c : ℕ)
    (hdeg : a = b ∨ b = c ∨ a = c)
    (ha : a < V.length) (hb : b < V.length) (hc : c < V.length)
    (out : List Vec3) (hout : 2 * V.length ≤ out.length) :
    faceNormal V (a, b, c) = 0 ∧
      (∀ j, contrib V (a, b, c) j = 0) ∧
      applyTri V (a, b, c) out = some out := by
  have hface : faceNormal V (a, b, c) = 0 := faceNormal_deg V a b c hdeg
  refine ⟨hface, ?_, ?_⟩
  · intro j
    rw [contrib_eq, hface]
    simp
  · rw [applyTri_eq V a b c out ha hb hc hout, hface]
    rw [bump_zero out _ (by omega),
      bump_zero out _ (by omega),
      bump_zero out _ (by omega)]

theorem claim7_degenerate_triangle_witness :
    faceNormal [⟨0, 0, 0⟩, ⟨1, 0, 0⟩] (0, 0, 1) = 0 ∧
      (∀ j, contrib [⟨0, 0, 0⟩, ⟨1, 0, 0⟩] (0, 0, 1) j = 0) ∧
      applyTri [⟨0, 0, 0⟩, ⟨1, 0, 0⟩] (0, 0, 1) [0, 0, 0, 0]
        = some [0, 0, 0, 0] :=
  claim7_degenerate_triangle [⟨0, 0, 0⟩, ⟨1, 0, 0⟩] 0 0 1
    (Or.inl rfl) (by decide) (by decide) (by decide)
    [0, 0, 0, 0] (by decide)

/-- C8: a vertex index that never appears in `indices` keeps the zero
vector as its output normal, and the run completes without error. -/
theorem claim8_unreferenced_vertex (V : List Vec3) (I : List ℕ) (j : ℕ)
    (hv : ∀ i ∈ I, i < V.length) (h3 : I.length % 3 = 0)
    (hj : j < V.length) (hnotin : j ∉ I) :
    ∃ out, build_smooth_normals V I [] = some out ∧
      out.getD (j * 2 + 1) 0 = 0 := by
  obtain ⟨out, hb, _, _, hodd⟩ := build_char V I hv h3
  refine ⟨out, hb, ?_⟩
  rw [hodd j]
  apply sum_eq_zero_vec
  intro v hv'
  obtain ⟨t, ht, rfl⟩ := List.mem_map.mp hv'
  obtain ⟨h1, h2, h3'⟩ := mem_triangles I.length I le_rfl t ht
  have href : ¬(refersTo t j = true) := by
    simp only [refersTo, Bool.or_eq_true, beq_iff_eq, not_or]
    refine ⟨⟨?_, ?_⟩, ?_⟩
    · intro he
      exact hnotin (he ▸ h1)
    · intro he
      exact hnotin (he ▸ h2)
    · intro he
      exact hnotin (he ▸ h3')
  rw [contrib_eq, if_neg href]

theorem claim8_unreferenced_vertex_witness :
    ∃ out,
      build_smooth_normals [⟨0, 0, 0⟩, ⟨1, 0, 0⟩, ⟨0, 1, 0⟩, ⟨1, 1, 1⟩]
        [0, 1, 2] [] = some out ∧
      out.getD (3 * 2 + 1) 0 = 0 :=
  claim8_unreferenced_vertex [⟨0, 0, 0⟩, ⟨1, 0, 0⟩, ⟨0, 1, 0⟩, ⟨1, 1, 1⟩]
    [0, 1, 2] 3 (by decide) (by decide) (by decide) (by decide)

/-- C9: scaling all positions by `k` scales every accumulated output
normal by exactly `k²`. -/
theorem claim9_scale_quadratic (V : List Vec3) (I : List ℕ) (k : ℚ)
    (hv : ∀ j ∈ I, j < V.length) (h3 : I.length % 3 = 0) :
    ∃ out out', build_smooth_normals V I [] = some out ∧
      build_smooth_normals (V.map (fun v => k • v)) I [] = some out' ∧
      ∀ j, out'.getD (j * 2 + 1) 0 = (k * k) • out.getD (j * 2 + 1) 0 := by
  have hv' : ∀ j ∈ I, j < (V.map (fun v => k • v)).length := by
    simpa using hv
  obtain ⟨out, hb, _, _, hodd⟩ := build_char V I hv h3
  obtain ⟨out', hb', _, _, hodd'⟩ := build_char _ I hv' h3
  refine ⟨out, out', hb, hb', ?_⟩
  intro j
  rw [hodd j, hodd' j, accNormal_smul]

theorem claim9_scale_quadratic_witness :
    ∃ out out',
      build_smooth_normals [⟨0, 0, 0⟩, ⟨1, 0, 0⟩, ⟨0, 1, 0⟩] [0, 1, 2] []
        = some out ∧
      build_smooth_normals
        (([⟨0, 0, 0⟩, ⟨1, 0, 0⟩, ⟨0, 1, 0⟩] : List Vec3).map
          (fun v => (2 : ℚ) • v)) [0, 1, 2] [] = some out' ∧
      ∀ j, out'.getD (j * 2 + 1) 0
        = ((2 : ℚ) * 2) • out.getD (j * 2 + 1) 0 :=
  claim9_scale_quadratic [⟨0, 0, 0⟩, ⟨1, 0, 0⟩, ⟨0, 1, 0⟩] [0, 1, 2] 2
    (by decide) (by decide)

/-- C10: when `indices.len()` is not a multiple of 3 (all present indices
in bounds), the run fails with an out-of-bounds read of the trailing
partial triangle instead of silently ignoring it. -/
theorem claim10_trailing_partial (V : List Vec3) (I : List ℕ)
    (hv : ∀ j ∈ I, j < V.length) (h3 : I.length % 3 ≠ 0) :
    build_smooth_normals V I [] = none := by
  rw [build_eq_runTriangles, List.nil_append]
  exact runTriangles_partial V I.length I le_rfl hv h3 _
    (le_of_eq (interleaveZeros_length V).symm)

theorem claim10_trailing_partial_witness :
    build_smooth_normals [⟨0, 0, 0⟩, ⟨1, 0, 0⟩, ⟨0, 1, 0⟩] [0, 1, 2, 0] []
      = none :=
  claim10_trailing_partial [⟨0, 0, 0⟩, ⟨1, 0, 0⟩, ⟨0, 1, 0⟩] [0, 1, 2, 0]
    (by decide) (by decide)

end Iso

/-- C6: the torus field's sample at `(x, y, z)` is
`sqrt((sqrt(x'² + y'²) - 1/4)² + z'²) - 1/10` where `(x', y', z')` is the
query point translated by the domain center `(0.5, 0.5, 0.5)`. -/
theorem claim6_torus_sample (x y z : ℝ) :
    IsoField.Torus.sample x y z
      = Real.sqrt ((Real.sqrt ((x - 0.5) ^ 2 + (y - 0.5) ^ 2) - 1 / 4) ^ 2
          + (z - 0.5) ^ 2) - 1 / 10 := by
  simp only [IsoField.Torus.sample, IsoField.torus,
    abs_of_nonneg (Real.sqrt_nonneg _)]
  ring_nf
